import Mathlib

/-!
Verification of the chunk-packing core of `src/offline/chunking.py`
(`TextChunker.create_chunks`), shallowly embedded in Lean.

The Sentence Segmenter (NLTK) and Token Counter (tiktoken) are external
collaborators; following the spec they are modelled as parameters:
the segmenter's output is the input sentence list, and the token counter
is an arbitrary function `tc : String → Nat`.

Python's `" ".join(lst)` is embedded as `joinSp`, `len` on strings as
`String.length` (both count characters).  The single floating-point
comparison `combined_tokens <= chunk_max_tokens * 1.2` (line 192) is
embedded as the exact rational comparison `combined_tokens * 5 ≤
chunk_max_tokens * 6`; the two agree at every integer input except for a
possible one-off at a boundary caused by binary rounding of 1.2 (and in
particular agree for the repository default `chunk_max_tokens = 800`,
where the float product is exactly 960.0).
-/

/-- The `Chunk` dataclass of `src/offline/chunking.py` (lines 17-25). -/
structure Chunk where
  text : String
  token_count : Nat
  chunk_id : Nat
  start_char : Nat
  end_char : Nat
deriving DecidableEq, Repr

/-- The chunking-relevant fields of `Config` (`src/config.py`, lines 31-34),
with the validation of lines 109-116 (`chunk_min_tokens < chunk_max_tokens`,
`chunk_overlap_min < chunk_overlap_max < chunk_min_tokens`) kept as a
separate predicate `ChunkerConfig.valid`. -/
structure ChunkerConfig where
  chunk_min_tokens : Nat
  chunk_max_tokens : Nat
  chunk_overlap_min : Nat
  chunk_overlap_max : Nat
deriving DecidableEq, Repr

/-- The range checks performed by `Config.from_env` (config.py lines 109-116). -/
def ChunkerConfig.valid (cfg : ChunkerConfig) : Prop :=
  cfg.chunk_min_tokens < cfg.chunk_max_tokens ∧
  cfg.chunk_overlap_min < cfg.chunk_overlap_max ∧
  cfg.chunk_overlap_max < cfg.chunk_min_tokens

instance (cfg : ChunkerConfig) : Decidable cfg.valid := by
  unfold ChunkerConfig.valid; infer_instance

/-- Python's `" ".join(lst)`. -/
def joinSp : List String → String
  | [] => ""
  | [s] => s
  | s :: t :: rest => s ++ " " ++ joinSp (t :: rest)

/-- Mutable loop state of `create_chunks` (chunking.py lines 103-106):
`chunks`, `current_chunk_sentences`, `current_tokens`, `char_position`.
(`previous_chunk_text` of line 109 is written but never read, so it is
omitted.) -/
structure PackState where
  chunks : List Chunk
  buf : List String
  curTokens : Nat
  charPos : Nat
deriving Repr

/-- The backward walk of chunking.py lines 141-148: starting from the
reversed sentence list, keep prepending sentences while the accumulated
overlap stays within `overlap_max`, stopping at the first sentence that
would exceed it. -/
def overlapLoop (tc : String → Nat) (omax : Nat) :
    List String → List String → Nat → List String × Nat
  | [], acc, tok => (acc, tok)
  | s :: rest, acc, tok =>
    let t := tc s
    if tok + t ≤ omax then overlapLoop tc omax rest (s :: acc) (tok + t)
    else (acc, tok)

/-- The Overlap Window Builder (chunking.py lines 137-148): walk the just
finalized chunk's sentences backwards, accumulating an overlap seed. -/
def buildOverlap (tc : String → Nat) (omax : Nat) (buf : List String) :
    List String × Nat :=
  overlapLoop tc omax buf.reverse [] 0

/-- Acceptance test for the overlap seed (chunking.py lines 150-157):
the seed is used only if it reaches `chunk_overlap_min`; otherwise the next
chunk's buffer starts empty. -/
def seedChunk (tc : String → Nat) (omin omax : Nat) (buf : List String) :
    List String × Nat :=
  let p := buildOverlap tc omax buf
  if omin ≤ p.2 then p else ([], 0)

/-- Lines 114-159 of chunking.py: if adding the incoming sentence (of token
count `t`) would exceed `chunk_max_tokens` and the buffer is non-empty,
finalize the buffer as a chunk, advance the cursor, and reseed the buffer
from the overlap builder. -/
def midFinalize (tc : String → Nat) (cfg : ChunkerConfig) (t : Nat)
    (st : PackState) : PackState :=
  if cfg.chunk_max_tokens < st.curTokens + t ∧ st.buf ≠ [] then
    let chunkText := joinSp st.buf
    let c : Chunk :=
      { text := chunkText, token_count := tc chunkText,
        chunk_id := st.chunks.length, start_char := st.charPos,
        end_char := st.charPos + chunkText.length }
    let p := seedChunk tc cfg.chunk_overlap_min cfg.chunk_overlap_max st.buf
    { chunks := st.chunks ++ [c], buf := p.1, curTokens := p.2,
      charPos := st.charPos + chunkText.length + 1 }
  else st

/-- Lines 161-163 of chunking.py: append the sentence to the buffer and add
its token count to the running sum. -/
def appendSentence (tc : String → Nat) (s : String) (st : PackState) :
    PackState :=
  { st with buf := st.buf ++ [s], curTokens := st.curTokens + tc s }

/-- Lines 165-182 of chunking.py: on the last sentence, if the running sum
reached `chunk_min_tokens`, finalize the buffer as a chunk.  (Note the
source neither clears the buffer nor advances the cursor here.) -/
def lastFinalize (tc : String → Nat) (cfg : ChunkerConfig) (isLast : Bool)
    (st : PackState) : PackState :=
  if isLast ∧ cfg.chunk_min_tokens ≤ st.curTokens then
    let chunkText := joinSp st.buf
    let c : Chunk :=
      { text := chunkText, token_count := tc chunkText,
        chunk_id := st.chunks.length, start_char := st.charPos,
        end_char := st.charPos + chunkText.length }
    { st with chunks := st.chunks ++ [c] }
  else st

/-- One iteration of the `for i, sentence in enumerate(sentences)` loop body
(chunking.py lines 111-182). -/
def packStep (tc : String → Nat) (cfg : ChunkerConfig) (isLast : Bool)
    (s : String) (st : PackState) : PackState :=
  lastFinalize tc cfg isLast (appendSentence tc s (midFinalize tc cfg (tc s) st))

/-- The whole sentence loop; `rest.isEmpty` plays the role of
`i == len(sentences) - 1`. -/
def packLoop (tc : String → Nat) (cfg : ChunkerConfig) :
    List String → PackState → PackState
  | [], st => st
  | s :: rest, st => packLoop tc cfg rest (packStep tc cfg rest.isEmpty s st)

/-- Lines 184-214 of chunking.py: the trailing-remainder handler.  Joins the
leftover buffer; if the combination with the last chunk stays within
`chunk_max_tokens * 1.2` the last chunk is replaced by the merged chunk,
otherwise the leftover becomes a new trailing chunk. -/
def resolveTail (tc : String → Nat) (cfg : ChunkerConfig) (st : PackState) :
    List Chunk :=
  match st.chunks.getLast? with
  | none => st.chunks
  | some last =>
    let remaining_text := joinSp st.buf
    let combined_text := last.text ++ " " ++ remaining_text
    let combined_tokens := tc combined_text
    if combined_tokens * 5 ≤ cfg.chunk_max_tokens * 6 then
      st.chunks.dropLast ++
        [{ text := combined_text, token_count := combined_tokens,
           chunk_id := last.chunk_id, start_char := last.start_char,
           end_char := last.end_char + remaining_text.length + 1 }]
    else
      st.chunks ++
        [{ text := remaining_text, token_count := tc remaining_text,
           chunk_id := st.chunks.length, start_char := st.charPos,
           end_char := st.charPos + remaining_text.length }]

/-- `TextChunker.create_chunks` (chunking.py lines 78-230), parametrized by
the token counter `tc` and the already-segmented sentence list. -/
def createChunks (tc : String → Nat) (cfg : ChunkerConfig)
    (sentences : List String) : List Chunk :=
  if sentences = [] then []
  else
    let st := packLoop tc cfg sentences ⟨[], [], 0, 0⟩
    if st.buf ≠ [] ∧ st.chunks ≠ [] then resolveTail tc cfg st
    else st.chunks

/-- Token counter used for concrete runs: the number of `'a'` characters,
optionally scaled.  It is a legitimate instance of the spec's Token Counter
interface (deterministic, non-negative) and is additive across the space
joins performed by the chunker, which makes traces easy to audit. -/
def countA (s : String) : Nat := s.data.count 'a'

/-! ### Basic facts about `joinSp` and `countA` -/

theorem joinSp_append (l₁ l₂ : List String) (h₁ : l₁ ≠ []) (h₂ : l₂ ≠ []) :
    joinSp (l₁ ++ l₂) = joinSp l₁ ++ " " ++ joinSp l₂ := by
  induction l₁ with
  | nil => exact absurd rfl h₁
  | cons s rest ih =>
    cases rest with
    | nil =>
      cases l₂ with
      | nil => exact absurd rfl h₂
      | cons t r => simp [joinSp]
    | cons t r =>
      have ih' := ih (by simp)
      have h1 : (s :: t :: r) ++ l₂ = s :: ((t :: r) ++ l₂) := rfl
      have h2 : joinSp (s :: ((t :: r) ++ l₂)) = s ++ " " ++ joinSp ((t :: r) ++ l₂) := rfl
      have h3 : joinSp (s :: t :: r) = s ++ " " ++ joinSp (t :: r) := rfl
      rw [h1, h2, ih', h3]
      simp [String.append_assoc]

theorem joinSp_data_ne_nil (l : List String) (hne : l ≠ [])
    (hall : ∀ s ∈ l, s ≠ "") : (joinSp l).data ≠ [] := by
  cases l with
  | nil => exact absurd rfl hne
  | cons s rest =>
    cases rest with
    | nil =>
      have hs : s ≠ "" := hall s (by simp)
      simp only [joinSp]
      intro hd
      exact hs (String.ext hd)
    | cons t r =>
      simp only [joinSp, String.data_append]
      simp

theorem joinSp_ne_empty (l : List String) (hne : l ≠ [])
    (hall : ∀ s ∈ l, s ≠ "") : joinSp l ≠ "" := by
  intro he
  exact joinSp_data_ne_nil l hne hall (by rw [he])

theorem str_append_ne_empty (a c : String) : a ++ " " ++ c ≠ "" := by
  intro he
  have : (a ++ " " ++ c).data = [] := by rw [he]
  simp [String.data_append] at this

theorem countA_append (a b : String) : countA (a ++ b) = countA a + countA b := by
  simp [countA, String.data_append, List.count_append]

theorem countA_joinSp : ∀ l : List String, countA (joinSp l) = (l.map countA).sum
  | [] => by simp [joinSp, countA]
  | [s] => by simp [joinSp]
  | s :: t :: r => by
    have ih := countA_joinSp (t :: r)
    simp only [joinSp, countA_append, ih]
    have hsp : countA " " = 0 := by decide
    simp [hsp]

/-! ### The Overlap Window Builder -/

theorem overlapLoop_spec (tc : String → Nat) (omax : Nat) :
    ∀ (r acc : List String) (tok : Nat),
      tok = (acc.map tc).sum → tok ≤ omax →
      (overlapLoop tc omax r acc tok).2 =
        (((overlapLoop tc omax r acc tok).1).map tc).sum ∧
      (overlapLoop tc omax r acc tok).2 ≤ omax ∧
      ∃ pre post, r = pre ++ post ∧
        (overlapLoop tc omax r acc tok).1 = pre.reverse ++ acc := by
  intro r
  induction r with
  | nil =>
    intro acc tok hsum hle
    exact ⟨hsum, hle, [], [], rfl, by simp [overlapLoop]⟩
  | cons s rest ih =>
    intro acc tok hsum hle
    by_cases h : tok + tc s ≤ omax
    · have hred : overlapLoop tc omax (s :: rest) acc tok =
          overlapLoop tc omax rest (s :: acc) (tok + tc s) := by
        simp [overlapLoop, h]
      have hsum' : tok + tc s = ((s :: acc).map tc).sum := by
        simp [hsum, Nat.add_comm]
      obtain ⟨h1, h2, pre, post, hpre, hres⟩ := ih (s :: acc) (tok + tc s) hsum' h
      refine ⟨by rw [hred]; exact h1, by rw [hred]; exact h2,
        s :: pre, post, by simp [hpre], ?_⟩
      rw [hred, hres]
      simp
    · have hred : overlapLoop tc omax (s :: rest) acc tok = (acc, tok) := by
        simp [overlapLoop, h]
      exact ⟨by rw [hred]; exact hsum, by rw [hred]; exact hle,
        [], s :: rest, rfl, by rw [hred]; simp⟩

theorem buildOverlap_spec (tc : String → Nat) (omax : Nat) (buf : List String) :
    (buildOverlap tc omax buf).2 = (((buildOverlap tc omax buf).1).map tc).sum ∧
    (buildOverlap tc omax buf).2 ≤ omax ∧
    ∃ preL, preL ++ (buildOverlap tc omax buf).1 = buf := by
  obtain ⟨h1, h2, pre, post, hpre, hres⟩ :=
    overlapLoop_spec tc omax buf.reverse [] 0 (by simp) (Nat.zero_le _)
  refine ⟨h1, h2, post.reverse, ?_⟩
  unfold buildOverlap at *
  rw [hres]
  have : buf = post.reverse ++ pre.reverse := by
    have := congrArg List.reverse hpre
    simpa [List.reverse_append] using this
  rw [this]
  simp

theorem seedChunk_spec (tc : String → Nat) (omin omax : Nat) (buf : List String) :
    (seedChunk tc omin omax buf).2 =
      (((seedChunk tc omin omax buf).1).map tc).sum ∧
    (seedChunk tc omin omax buf).2 ≤ omax ∧
    ∃ preL, preL ++ (seedChunk tc omin omax buf).1 = buf := by
  unfold seedChunk
  by_cases h : omin ≤ (buildOverlap tc omax buf).2
  · simpa [h] using buildOverlap_spec tc omax buf
  · refine ⟨?_, ?_, buf, ?_⟩ <;> simp [h]

/-! ### The shape of every chunk the packer produces

`Good tc SS c` collects the structural facts that hold of every chunk:
its text is the space-join of a non-empty list of input sentences, its
`token_count` is the token counter re-run on its final `text`, and its
`end_char` is `start_char` plus the character length of `text`. -/

def Good (tc : String → Nat) (SS : List String) (c : Chunk) : Prop :=
  (∃ l, l ≠ [] ∧ (∀ x ∈ l, x ∈ SS) ∧ c.text = joinSp l) ∧
  c.token_count = tc c.text ∧
  c.end_char = c.start_char + c.text.length

/-- Loop invariant of `create_chunks`: the buffer holds input sentences,
`current_tokens` is the sum of the buffer's per-sentence token counts, the
chunk ids so far are `0, 1, …`, and every emitted chunk is `Good`. -/
def PackInv (tc : String → Nat) (SS : List String) (st : PackState) : Prop :=
  (∀ s ∈ st.buf, s ∈ SS) ∧
  st.curTokens = (st.buf.map tc).sum ∧
  st.chunks.map Chunk.chunk_id = List.range st.chunks.length ∧
  ∀ c ∈ st.chunks, Good tc SS c

theorem ids_snoc (chunks : List Chunk) (c : Chunk)
    (h : chunks.map Chunk.chunk_id = List.range chunks.length)
    (hc : c.chunk_id = chunks.length) :
    (chunks ++ [c]).map Chunk.chunk_id = List.range (chunks ++ [c]).length := by
  rw [List.map_append, h, List.length_append]
  simp [hc, List.range_succ]

theorem midFinalize_inv (tc : String → Nat) (cfg : ChunkerConfig) (t : Nat)
    (SS : List String) (st : PackState) (h : PackInv tc SS st) :
    PackInv tc SS (midFinalize tc cfg t st) := by
  obtain ⟨hbuf, hsum, hids, hgood⟩ := h
  unfold midFinalize
  by_cases hc : cfg.chunk_max_tokens < st.curTokens + t ∧ st.buf ≠ []
  · rw [if_pos hc]
    obtain ⟨hseed_sum, _, preL, hseed_suffix⟩ :=
      seedChunk_spec tc cfg.chunk_overlap_min cfg.chunk_overlap_max st.buf
    refine ⟨?_, hseed_sum, ?_, ?_⟩
    · intro s hs
      exact hbuf s (by rw [← hseed_suffix]; exact List.mem_append_right _ hs)
    · exact ids_snoc _ _ hids rfl
    · intro c hcmem
      rcases List.mem_append.1 hcmem with hold | hnew
      · exact hgood c hold
      · rw [List.mem_singleton.1 hnew]
        exact ⟨⟨st.buf, hc.2, hbuf, rfl⟩, rfl, rfl⟩
  · rw [if_neg hc]
    exact ⟨hbuf, hsum, hids, hgood⟩

theorem appendSentence_inv (tc : String → Nat) (s : String) (SS : List String)
    (st : PackState) (hs : s ∈ SS) (h : PackInv tc SS st) :
    PackInv tc SS (appendSentence tc s st) := by
  obtain ⟨hbuf, hsum, hids, hgood⟩ := h
  refine ⟨?_, ?_, hids, hgood⟩
  · intro x hx
    rcases List.mem_append.1 hx with hx | hx
    · exact hbuf x hx
    · rw [List.mem_singleton.1 hx]; exact hs
  · simp [appendSentence, hsum]

theorem lastFinalize_inv (tc : String → Nat) (cfg : ChunkerConfig)
    (isLast : Bool) (SS : List String) (st : PackState)
    (hb : st.buf ≠ []) (h : PackInv tc SS st) :
    PackInv tc SS (lastFinalize tc cfg isLast st) := by
  obtain ⟨hbuf, hsum, hids, hgood⟩ := h
  unfold lastFinalize
  by_cases hc : isLast = true ∧ cfg.chunk_min_tokens ≤ st.curTokens
  · rw [if_pos hc]
    refine ⟨hbuf, hsum, ids_snoc _ _ hids rfl, ?_⟩
    intro c hcmem
    rcases List.mem_append.1 hcmem with hold | hnew
    · exact hgood c hold
    · rw [List.mem_singleton.1 hnew]
      exact ⟨⟨st.buf, hb, hbuf, rfl⟩, rfl, rfl⟩
  · rw [if_neg hc]
    exact ⟨hbuf, hsum, hids, hgood⟩

theorem packStep_inv (tc : String → Nat) (cfg : ChunkerConfig) (isLast : Bool)
    (s : String) (SS : List String) (st : PackState)
    (hs : s ∈ SS) (h : PackInv tc SS st) :
    PackInv tc SS (packStep tc cfg isLast s st) := by
  unfold packStep
  apply lastFinalize_inv
  · simp [appendSentence]
  · exact appendSentence_inv tc s SS _ hs (midFinalize_inv tc cfg (tc s) SS st h)

theorem packLoop_inv (tc : String → Nat) (cfg : ChunkerConfig)
    (SS : List String) :
    ∀ (l : List String) (st : PackState), (∀ s ∈ l, s ∈ SS) → PackInv tc SS st →
      PackInv tc SS (packLoop tc cfg l st) := by
  intro l
  induction l with
  | nil => intro st _ h; exact h
  | cons s rest ih =>
    intro st hl h
    exact ih _ (fun x hx => hl x (List.mem_cons_of_mem s hx))
      (packStep_inv tc cfg rest.isEmpty s SS st (hl s (List.mem_cons_self s rest)) h)

theorem init_inv (tc : String → Nat) (SS : List String) :
    PackInv tc SS ⟨[], [], 0, 0⟩ := by
  refine ⟨?_, ?_, ?_, ?_⟩ <;> simp

/-! ### The Trailing Remainder Resolver -/

theorem resolveTail_concat (tc : String → Nat) (cfg : ChunkerConfig)
    (init : List Chunk) (a : Chunk) (buf : List String) (cur pos : Nat) :
    resolveTail tc cfg ⟨init ++ [a], buf, cur, pos⟩ =
      if tc (a.text ++ " " ++ joinSp buf) * 5 ≤ cfg.chunk_max_tokens * 6 then
        init ++
          [{ text := a.text ++ " " ++ joinSp buf,
             token_count := tc (a.text ++ " " ++ joinSp buf),
             chunk_id := a.chunk_id, start_char := a.start_char,
             end_char := a.end_char + (joinSp buf).length + 1 }]
      else
        (init ++ [a]) ++
          [{ text := joinSp buf, token_count := tc (joinSp buf),
             chunk_id := (init ++ [a]).length, start_char := pos,
             end_char := pos + (joinSp buf).length }] := by
  unfold resolveTail
  rw [List.getLast?_concat]
  simp only [List.dropLast_concat]

theorem resolveTail_good (tc : String → Nat) (cfg : ChunkerConfig)
    (SS : List String) (st : PackState)
    (h : PackInv tc SS st) (hbuf : st.buf ≠ []) :
    (resolveTail tc cfg st).map Chunk.chunk_id =
      List.range (resolveTail tc cfg st).length ∧
    ∀ c ∈ resolveTail tc cfg st, Good tc SS c := by
  obtain ⟨hbufSS, hsum, hids, hgood⟩ := h
  rcases List.eq_nil_or_concat st.chunks with hnil | ⟨init, a, hconcat⟩
  · have : resolveTail tc cfg st = st.chunks := by
      unfold resolveTail
      rw [hnil]
      rfl
    rw [this, hnil]
    exact ⟨by simp, by simp⟩
  · rw [List.concat_eq_append] at hconcat
    obtain ⟨chunks, buf, cur, pos⟩ := st
    simp only at hconcat hbufSS hsum hids hgood hbuf
    subst hconcat
    rw [resolveTail_concat]
    have hamem : a ∈ init ++ [a] := List.mem_append_right _ (by simp)
    obtain ⟨⟨la, hla_ne, hla_SS, hla_text⟩, ha_count, ha_end⟩ := hgood a hamem
    by_cases hm : tc (a.text ++ " " ++ joinSp buf) * 5 ≤ cfg.chunk_max_tokens * 6
    · rw [if_pos hm]
      constructor
      · rw [List.map_append, List.length_append] at hids ⊢
        simp only [List.map_cons, List.map_nil, List.length_cons,
          List.length_nil] at hids ⊢
        exact hids
      · intro c hc
        rcases List.mem_append.1 hc with hcold | hcnew
        · exact hgood c (List.mem_append_left _ hcold)
        · rw [List.mem_singleton.1 hcnew]
          refine ⟨⟨la ++ buf, by simp [hla_ne], ?_, ?_⟩, rfl, ?_⟩
          · intro x hx
            rcases List.mem_append.1 hx with hx | hx
            · exact hla_SS x hx
            · exact hbufSS x hx
          · simp only [hla_text]
            exact (joinSp_append la buf hla_ne hbuf).symm
          · simp only [ha_end, ha_count]
            rw [String.length_append, String.length_append]
            have : (" " : String).length = 1 := rfl
            omega
    · rw [if_neg hm]
      constructor
      · exact ids_snoc _ _ hids rfl
      · intro c hc
        rcases List.mem_append.1 hc with hcold | hcnew
        · exact hgood c hcold
        · rw [List.mem_singleton.1 hcnew]
          exact ⟨⟨buf, hbuf, hbufSS, rfl⟩, rfl, rfl⟩

/-- Every chunk returned by `createChunks` is `Good`, and the ids are
`0, 1, 2, …` in order. -/
theorem createChunks_good (tc : String → Nat) (cfg : ChunkerConfig)
    (sentences : List String) :
    (createChunks tc cfg sentences).map Chunk.chunk_id =
      List.range (createChunks tc cfg sentences).length ∧
    ∀ c ∈ createChunks tc cfg sentences, Good tc sentences c := by
  unfold createChunks
  by_cases hnil : sentences = []
  · rw [if_pos hnil]
    exact ⟨by simp, by simp⟩
  · rw [if_neg hnil]
    have hinv : PackInv tc sentences (packLoop tc cfg sentences ⟨[], [], 0, 0⟩) :=
      packLoop_inv tc cfg sentences sentences ⟨[], [], 0, 0⟩
        (fun s hs => hs) (init_inv tc sentences)
    by_cases htail : (packLoop tc cfg sentences ⟨[], [], 0, 0⟩).buf ≠ [] ∧
        (packLoop tc cfg sentences ⟨[], [], 0, 0⟩).chunks ≠ []
    · simp only [if_pos htail]
      exact resolveTail_good tc cfg sentences _ hinv htail.1
    · simp only [if_neg htail]
      exact ⟨hinv.2.2.1, hinv.2.2.2⟩

/-! ### Sentence coverage -/

/-- `appears s c`: the sentence `s` is one of the space-joined constituents
of the chunk's text. -/
def appears (s : String) (c : Chunk) : Prop :=
  ∃ l₁ l₂, c.text = joinSp (l₁ ++ s :: l₂)

/-- During the pass, a sentence is either already inside an emitted chunk or
still sitting in the buffer. -/
def CovB (st : PackState) (s : String) : Prop :=
  (∃ c ∈ st.chunks, appears s c) ∨ s ∈ st.buf

theorem appears_of_mem (s : String) (buf : List String) (h : s ∈ buf)
    (c : Chunk) (hc : c.text = joinSp buf) : appears s c := by
  obtain ⟨l₁, l₂, hsplit⟩ := List.append_of_mem h
  exact ⟨l₁, l₂, by rw [hc, hsplit]⟩

theorem midFinalize_cov (tc : String → Nat) (cfg : ChunkerConfig) (t : Nat)
    (st : PackState) (x : String) (h : CovB st x) :
    CovB (midFinalize tc cfg t st) x := by
  unfold midFinalize
  by_cases hc : cfg.chunk_max_tokens < st.curTokens + t ∧ st.buf ≠ []
  · rw [if_pos hc]
    rcases h with ⟨c, hcm, happ⟩ | hb
    · exact Or.inl ⟨c, List.mem_append_left _ hcm, happ⟩
    · exact Or.inl ⟨_, List.mem_append_right _ (List.mem_singleton_self _),
        appears_of_mem x st.buf hb _ rfl⟩
  · rw [if_neg hc]
    exact h

theorem appendSentence_cov (tc : String → Nat) (s : String) (st : PackState)
    (x : String) (h : CovB st x) : CovB (appendSentence tc s st) x := by
  rcases h with ⟨c, hcm, happ⟩ | hb
  · exact Or.inl ⟨c, hcm, happ⟩
  · exact Or.inr (List.mem_append_left _ hb)

theorem lastFinalize_cov (tc : String → Nat) (cfg : ChunkerConfig)
    (isLast : Bool) (st : PackState) (x : String) (h : CovB st x) :
    CovB (lastFinalize tc cfg isLast st) x := by
  unfold lastFinalize
  by_cases hc : isLast = true ∧ cfg.chunk_min_tokens ≤ st.curTokens
  · rw [if_pos hc]
    rcases h with ⟨c, hcm, happ⟩ | hb
    · exact Or.inl ⟨c, List.mem_append_left _ hcm, happ⟩
    · exact Or.inr hb
  · rw [if_neg hc]
    exact h

theorem packStep_cov (tc : String → Nat) (cfg : ChunkerConfig) (isLast : Bool)
    (s : String) (st : PackState) (x : String) (h : CovB st x) :
    CovB (packStep tc cfg isLast s st) x :=
  lastFinalize_cov tc cfg isLast _ x
    (appendSentence_cov tc s _ x (midFinalize_cov tc cfg (tc s) st x h))

theorem packStep_cov_self (tc : String → Nat) (cfg : ChunkerConfig)
    (isLast : Bool) (s : String) (st : PackState) :
    CovB (packStep tc cfg isLast s st) s := by
  apply lastFinalize_cov
  exact Or.inr (by simp [appendSentence])

theorem packLoop_cov (tc : String → Nat) (cfg : ChunkerConfig) :
    ∀ (l : List String) (st : PackState) (x : String),
      x ∈ l ∨ CovB st x → CovB (packLoop tc cfg l st) x := by
  intro l
  induction l with
  | nil =>
    intro st x h
    rcases h with h | h
    · exact absurd h (List.not_mem_nil x)
    · exact h
  | cons s rest ih =>
    intro st x h
    rcases h with h | h
    · rcases List.mem_cons.1 h with rfl | hrest
      · exact ih _ x (Or.inr (packStep_cov_self tc cfg rest.isEmpty x st))
      · exact ih _ x (Or.inl hrest)
    · exact ih _ x (Or.inr (packStep_cov tc cfg rest.isEmpty s st x h))

theorem resolveTail_cov (tc : String → Nat) (cfg : ChunkerConfig)
    (SS : List String) (st : PackState)
    (h : PackInv tc SS st) (hbuf : st.buf ≠ []) (hchunks : st.chunks ≠ [])
    (x : String) (hcov : CovB st x) :
    ∃ c ∈ resolveTail tc cfg st, appears x c := by
  obtain ⟨hbufSS, hsum, hids, hgood⟩ := h
  rcases List.eq_nil_or_concat st.chunks with hnil | ⟨init, a, hconcat⟩
  · exact absurd hnil hchunks
  · rw [List.concat_eq_append] at hconcat
    obtain ⟨chunks, buf, cur, pos⟩ := st
    simp only at hconcat hbufSS hsum hids hgood hbuf hcov
    subst hconcat
    rw [resolveTail_concat]
    have hamem : a ∈ init ++ [a] := List.mem_append_right _ (by simp)
    obtain ⟨⟨la, hla_ne, _, hla_text⟩, _, _⟩ := hgood a hamem
    by_cases hm : tc (a.text ++ " " ++ joinSp buf) * 5 ≤ cfg.chunk_max_tokens * 6
    · rw [if_pos hm]
      rcases hcov with ⟨c, hcm, happ⟩ | hb
      · rcases List.mem_append.1 hcm with hcinit | hclast
        · exact ⟨c, List.mem_append_left _ hcinit, happ⟩
        · rw [List.mem_singleton.1 hclast] at happ
          obtain ⟨l₁, l₂, htext⟩ := happ
          refine ⟨_, List.mem_append_right _ (List.mem_singleton_self _),
            l₁, l₂ ++ buf, ?_⟩
          show a.text ++ " " ++ joinSp buf = joinSp (l₁ ++ x :: (l₂ ++ buf))
          rw [htext, ← joinSp_append (l₁ ++ x :: l₂) buf (by simp) hbuf]
          simp
      · obtain ⟨b₁, b₂, hbsplit⟩ := List.append_of_mem hb
        have hbsplit' : buf = b₁ ++ x :: b₂ := hbsplit
        refine ⟨_, List.mem_append_right _ (List.mem_singleton_self _),
          la ++ b₁, b₂, ?_⟩
        show a.text ++ " " ++ joinSp buf = joinSp (la ++ b₁ ++ x :: b₂)
        rw [hla_text, hbsplit', ← joinSp_append la (b₁ ++ x :: b₂) hla_ne (by simp)]
        simp
    · rw [if_neg hm]
      rcases hcov with ⟨c, hcm, happ⟩ | hb
      · exact ⟨c, List.mem_append_left _ hcm, happ⟩
      · exact ⟨_, List.mem_append_right _ (List.mem_singleton_self _),
          appears_of_mem x buf hb _ rfl⟩

/-! ### Token-count bounds (under an additive token counter) -/

/-- Bound invariant: the running sum matches the buffer, stays below `M`,
and every emitted chunk's `token_count` is at most `M`. -/
def BndInv (tc : String → Nat) (M : Nat) (st : PackState) : Prop :=
  st.curTokens = (st.buf.map tc).sum ∧
  st.curTokens ≤ M ∧
  ∀ c ∈ st.chunks, c.token_count ≤ M

theorem midFinalize_bnd (tc : String → Nat) (cfg : ChunkerConfig) (t : Nat)
    (st : PackState) (T M : Nat) (ht : t ≤ T)
    (hadd : ∀ l, l ≠ [] → tc (joinSp l) = (l.map tc).sum)
    (hM1 : cfg.chunk_max_tokens ≤ M) (hM2 : cfg.chunk_overlap_max + T ≤ M)
    (h : BndInv tc M st) :
    BndInv tc M (midFinalize tc cfg t st) ∧
    (midFinalize tc cfg t st).curTokens + t ≤ M := by
  obtain ⟨hsum, hcur, hchunks⟩ := h
  unfold midFinalize
  by_cases hc : cfg.chunk_max_tokens < st.curTokens + t ∧ st.buf ≠ []
  · rw [if_pos hc]
    obtain ⟨hp_sum, hp_le, _⟩ :=
      seedChunk_spec tc cfg.chunk_overlap_min cfg.chunk_overlap_max st.buf
    refine ⟨⟨hp_sum, ?_, ?_⟩, ?_⟩
    · show (seedChunk tc cfg.chunk_overlap_min cfg.chunk_overlap_max st.buf).2 ≤ M
      omega
    · intro c hcm
      rcases List.mem_append.1 hcm with hold | hnew
      · exact hchunks c hold
      · rw [List.mem_singleton.1 hnew]
        show tc (joinSp st.buf) ≤ M
        rw [hadd st.buf hc.2, ← hsum]
        exact hcur
    · show (seedChunk tc cfg.chunk_overlap_min cfg.chunk_overlap_max st.buf).2 + t ≤ M
      omega
  · rw [if_neg hc]
    refine ⟨⟨hsum, hcur, hchunks⟩, ?_⟩
    rcases Decidable.em (st.buf = []) with hbe | hbe
    · have hz : st.curTokens = 0 := by rw [hsum, hbe]; rfl
      omega
    · have hle : ¬ cfg.chunk_max_tokens < st.curTokens + t := fun hlt => hc ⟨hlt, hbe⟩
      omega

theorem appendSentence_bnd (tc : String → Nat) (s : String) (st : PackState)
    (M : Nat)
    (hsum : st.curTokens = (st.buf.map tc).sum)
    (hchunks : ∀ c ∈ st.chunks, c.token_count ≤ M)
    (hc2 : st.curTokens + tc s ≤ M) :
    BndInv tc M (appendSentence tc s st) := by
  refine ⟨?_, ?_, hchunks⟩
  · simp [appendSentence, hsum]
  · simpa [appendSentence] using hc2

theorem lastFinalize_bnd (tc : String → Nat) (cfg : ChunkerConfig)
    (isLast : Bool) (st : PackState) (M : Nat)
    (hadd : ∀ l, l ≠ [] → tc (joinSp l) = (l.map tc).sum)
    (hbne : st.buf ≠ []) (h : BndInv tc M st) :
    BndInv tc M (lastFinalize tc cfg isLast st) := by
  obtain ⟨hsum, hcur, hchunks⟩ := h
  unfold lastFinalize
  by_cases hl : isLast = true ∧ cfg.chunk_min_tokens ≤ st.curTokens
  · rw [if_pos hl]
    refine ⟨hsum, hcur, ?_⟩
    intro c hcm
    rcases List.mem_append.1 hcm with hold | hnew
    · exact hchunks c hold
    · rw [List.mem_singleton.1 hnew]
      show tc (joinSp st.buf) ≤ M
      rw [hadd st.buf hbne, ← hsum]
      exact hcur
  · rw [if_neg hl]
    exact ⟨hsum, hcur, hchunks⟩

theorem packStep_bnd (tc : String → Nat) (cfg : ChunkerConfig) (isLast : Bool)
    (s : String) (st : PackState) (T M : Nat) (hts : tc s ≤ T)
    (hadd : ∀ l, l ≠ [] → tc (joinSp l) = (l.map tc).sum)
    (hM1 : cfg.chunk_max_tokens ≤ M) (hM2 : cfg.chunk_overlap_max + T ≤ M)
    (h : BndInv tc M st) : BndInv tc M (packStep tc cfg isLast s st) := by
  obtain ⟨⟨hsum1, _, hchunks1⟩, hirf⟩ :=
    midFinalize_bnd tc cfg (tc s) st T M hts hadd hM1 hM2 h
  unfold packStep
  apply lastFinalize_bnd tc cfg isLast _ M hadd
  · simp [appendSentence]
  · exact appendSentence_bnd tc s _ M hsum1 hchunks1 hirf

theorem packLoop_bnd (tc : String → Nat) (cfg : ChunkerConfig) (T M : Nat)
    (hadd : ∀ l, l ≠ [] → tc (joinSp l) = (l.map tc).sum)
    (hM1 : cfg.chunk_max_tokens ≤ M) (hM2 : cfg.chunk_overlap_max + T ≤ M) :
    ∀ (l : List String) (st : PackState), (∀ s ∈ l, tc s ≤ T) →
      BndInv tc M st → BndInv tc M (packLoop tc cfg l st) := by
  intro l
  induction l with
  | nil => intro st _ h; exact h
  | cons s rest ih =>
    intro st hl h
    exact ih _ (fun x hx => hl x (List.mem_cons_of_mem s hx))
      (packStep_bnd tc cfg rest.isEmpty s st T M
        (hl s (List.mem_cons_self s rest)) hadd hM1 hM2 h)

theorem resolveTail_bnd (tc : String → Nat) (cfg : ChunkerConfig)
    (st : PackState) (M : Nat)
    (hadd : ∀ l, l ≠ [] → tc (joinSp l) = (l.map tc).sum)
    (hbuf : st.buf ≠ []) (h : BndInv tc M st) :
    ∀ c ∈ resolveTail tc cfg st,
      c.token_count ≤ M ∨ 5 * c.token_count ≤ 6 * cfg.chunk_max_tokens := by
  obtain ⟨hsum, hcur, hchunks⟩ := h
  rcases List.eq_nil_or_concat st.chunks with hnil | ⟨init, a, hconcat⟩
  · have hid : resolveTail tc cfg st = st.chunks := by
      unfold resolveTail
      rw [hnil]
      rfl
    rw [hid]
    intro c hc
    exact Or.inl (hchunks c hc)
  · rw [List.concat_eq_append] at hconcat
    obtain ⟨chunks, buf, cur, pos⟩ := st
    simp only at hconcat hsum hcur hchunks hbuf
    subst hconcat
    rw [resolveTail_concat]
    by_cases hm : tc (a.text ++ " " ++ joinSp buf) * 5 ≤ cfg.chunk_max_tokens * 6
    · rw [if_pos hm]
      intro c hc
      rcases List.mem_append.1 hc with hold | hnew
      · exact Or.inl (hchunks c (List.mem_append_left _ hold))
      · rw [List.mem_singleton.1 hnew]
        refine Or.inr ?_
        show 5 * tc (a.text ++ " " ++ joinSp buf) ≤ 6 * cfg.chunk_max_tokens
        omega
    · rw [if_neg hm]
      intro c hc
      rcases List.mem_append.1 hc with hold | hnew
      · exact Or.inl (hchunks c hold)
      · rw [List.mem_singleton.1 hnew]
        refine Or.inl ?_
        show tc (joinSp buf) ≤ M
        rw [hadd buf hbuf, ← hsum]
        exact hcur

/-! ### Concrete token counters and configurations for concrete runs -/

/-- Five tokens per `'a'` character. -/
def tcFive (s : String) : Nat := 5 * countA s

/-- Five hundred tokens per `'a'` character. -/
def tcFiveHundred (s : String) : Nat := 500 * countA s

/-- The repository default bounds (config.py lines 98-101). -/
def cfgDefault : ChunkerConfig := ⟨400, 800, 80, 150⟩

/-- A valid configuration with a small `chunk_min_tokens`. -/
def cfgSmall : ChunkerConfig := ⟨5, 800, 1, 3⟩

/-- A tiny valid configuration. -/
def cfgTiny : ChunkerConfig := ⟨2, 3, 0, 1⟩

/-- A mid-sized valid configuration. -/
def cfgMid : ChunkerConfig := ⟨10, 20, 2, 8⟩

/-- Sentences of 12, 5, 18, 1 and 9 tokens under `countA`. -/
def sentsC4 : List String :=
  ["aaaaaaaaaaaa", "aaaaa", "aaaaaaaaaaaaaaaaaa", "a", "aaaaaaaaa"]

/-! ### The claims -/

/-- C1: the claim says the trailing-remainder step runs only when the
end-of-input finalization condition did NOT fire, and that after it fired no
tail merge happens.  The code contradicts this: `create_chunks` never clears
`current_chunk_sentences` after the final-sentence finalization (lines
165-182), so the handler at lines 184-214 always re-processes the very
sentences just finalized.  Here a single sentence of 10 tokens with
`min_tokens = 5` triggers the final finalization (10 ≥ 5), yet the returned
chunk is the merge of that chunk with a second copy of its own text. -/
theorem c1_tail_runs_after_final_finalize :
    ChunkerConfig.valid cfgSmall ∧
    tcFive "aa" = 10 ∧ cfgSmall.chunk_min_tokens ≤ 10 ∧
    createChunks tcFive cfgSmall ["aa"] =
      [{ text := "aa aa", token_count := 20, chunk_id := 0,
         start_char := 0, end_char := 5 }] ∧
    (createChunks tcFive cfgSmall ["aa"]).map Chunk.text ≠ ["aa"] := by
  refine ⟨by decide, by decide, by decide, by decide, by decide⟩

/-- C2: the claim (and spec scenario) says a single 2000-token sentence with
`max_tokens = 800` yields exactly one chunk.  Because the buffer is not
cleared after the final-sentence finalization, the tail handler fires, the
merged text fails the `max_tokens * 1.2` bound, and a duplicate trailing
chunk is appended: the code returns TWO identical chunks.  (The
no-split-sentence part does hold: each chunk carries the sentence intact
with `token_count` 2000.) -/
theorem c2_oversized_sentence_chunk_duplicated :
    ChunkerConfig.valid cfgDefault ∧
    tcFiveHundred "aaaa" = 2000 ∧
    createChunks tcFiveHundred cfgDefault ["aaaa"] =
      [{ text := "aaaa", token_count := 2000, chunk_id := 0,
         start_char := 0, end_char := 4 },
       { text := "aaaa", token_count := 2000, chunk_id := 1,
         start_char := 0, end_char := 4 }] ∧
    (createChunks tcFiveHundred cfgDefault ["aaaa"]).length ≠ 1 := by
  refine ⟨by decide, by decide, by decide, by decide⟩

/-- C3 counterexample: a document consisting of one sentence of 3 tokens
with `min_tokens = 10` returns the empty chunk sequence, so that sentence
appears in no chunk at all — the unconditional coverage claim is false. -/
theorem c3_counterexample :
    ¬ ∃ c ∈ createChunks countA cfgMid ["aaa"], appears "aaa" c := by
  rintro ⟨c, hc, -⟩
  rw [show createChunks countA cfgMid ["aaa"] = [] from by decide] at hc
  exact List.not_mem_nil c hc

/-- C3 amended: whenever `create_chunks` returns a non-empty sequence,
every input sentence appears among the space-joined constituents of at
least one returned chunk.  (The only way a sentence can be lost is the
whole-document-below-`min_tokens` case, which returns the empty sequence.) -/
theorem c3_amended (tc : String → Nat) (cfg : ChunkerConfig)
    (sentences : List String)
    (hne : createChunks tc cfg sentences ≠ []) :
    ∀ s ∈ sentences, ∃ c ∈ createChunks tc cfg sentences, appears s c := by
  intro s hs
  by_cases hnil : sentences = []
  · rw [hnil] at hs
    exact absurd hs (List.not_mem_nil s)
  · have hinv : PackInv tc sentences (packLoop tc cfg sentences ⟨[], [], 0, 0⟩) :=
      packLoop_inv tc cfg sentences sentences ⟨[], [], 0, 0⟩
        (fun x hx => hx) (init_inv tc sentences)
    have hcov : CovB (packLoop tc cfg sentences ⟨[], [], 0, 0⟩) s :=
      packLoop_cov tc cfg sentences ⟨[], [], 0, 0⟩ s (Or.inl hs)
    unfold createChunks at hne ⊢
    rw [if_neg hnil] at hne ⊢
    by_cases htail : (packLoop tc cfg sentences ⟨[], [], 0, 0⟩).buf ≠ [] ∧
        (packLoop tc cfg sentences ⟨[], [], 0, 0⟩).chunks ≠ []
    · simp only [if_pos htail]
      exact resolveTail_cov tc cfg sentences _ hinv htail.1 htail.2 s hcov
    · simp only [if_neg htail] at hne ⊢
      rcases hcov with ⟨c, hcm, happ⟩ | hb
      · exact ⟨c, hcm, happ⟩
      · exfalso
        have hbufne : (packLoop tc cfg sentences ⟨[], [], 0, 0⟩).buf ≠ [] := by
          intro hz
          rw [hz] at hb
          exact List.not_mem_nil s hb
        have hch : (packLoop tc cfg sentences ⟨[], [], 0, 0⟩).chunks = [] := by
          by_contra hch
          exact htail ⟨hbufne, hch⟩
        exact hne hch

/-- C3 witness: a concrete non-empty run in which the sentence is found in a
returned chunk. -/
theorem c3_witness :
    ∃ c ∈ createChunks countA cfgTiny ["aa"], appears "aa" c :=
  c3_amended countA cfgTiny ["aa"] (by decide) "aa" (by decide)

/-- C4 counterexample: with bounds (min 10, max 20, overlap 2-8) and
sentences of 12, 5, 18, 1, 9 tokens (none above `max_tokens`), the middle
chunk of the three returned carries 23 tokens — above `max_tokens = 20` —
although it is not the final chunk and holds two sentences (an accepted
5-token overlap seed plus an 18-token sentence), neither of which exceeds
`max_tokens`.  So the stated exceptions do not cover all over-budget
chunks. -/
theorem c4_counterexample :
    ChunkerConfig.valid cfgMid ∧
    (∀ s ∈ sentsC4, countA s ≤ cfgMid.chunk_max_tokens) ∧
    (createChunks countA cfgMid sentsC4).map Chunk.token_count = [17, 23, 20] ∧
    ¬ (23 ≤ cfgMid.chunk_max_tokens) := by
  refine ⟨by decide, by decide, by decide, by decide⟩

/-- C4 amended: for a token counter that is additive across space-joins and
whose per-sentence counts are bounded by `T`, every returned chunk's
`token_count` is at most `max_tokens + overlap_max + T` (an accepted
overlap seed plus one further sentence can overshoot `max_tokens` by at
most `overlap_max + T`), except for the merged tail chunk, which instead
obeys the `max_tokens * 1.2` bound enforced at the merge. -/
theorem c4_amended (tc : String → Nat) (cfg : ChunkerConfig)
    (sentences : List String) (T : Nat)
    (hT : ∀ s ∈ sentences, tc s ≤ T)
    (hadd : ∀ l, l ≠ [] → tc (joinSp l) = (l.map tc).sum) :
    ∀ c ∈ createChunks tc cfg sentences,
      c.token_count ≤ cfg.chunk_max_tokens + cfg.chunk_overlap_max + T ∨
      5 * c.token_count ≤ 6 * cfg.chunk_max_tokens := by
  intro c hc
  unfold createChunks at hc
  by_cases hnil : sentences = []
  · rw [if_pos hnil] at hc
    exact absurd hc (List.not_mem_nil c)
  · rw [if_neg hnil] at hc
    have hbnd : BndInv tc (cfg.chunk_max_tokens + cfg.chunk_overlap_max + T)
        (packLoop tc cfg sentences ⟨[], [], 0, 0⟩) := by
      apply packLoop_bnd tc cfg T _ hadd (by omega) (by omega) sentences _ hT
      exact ⟨by simp, by simp, by simp⟩
    by_cases htail : (packLoop tc cfg sentences ⟨[], [], 0, 0⟩).buf ≠ [] ∧
        (packLoop tc cfg sentences ⟨[], [], 0, 0⟩).chunks ≠ []
    · simp only [if_pos htail] at hc
      exact resolveTail_bnd tc cfg _ _ hadd htail.1 hbnd c hc
    · simp only [if_neg htail] at hc
      exact Or.inl (hbnd.2.2 c hc)

/-- C4 witness: a concrete chunk of a concrete run satisfying the amended
bound, with the hypotheses discharged for `countA`. -/
theorem c4_witness :
    ({ text := "aa", token_count := 2, chunk_id := 0, start_char := 0,
       end_char := 2 } : Chunk).token_count ≤
        cfgTiny.chunk_max_tokens + cfgTiny.chunk_overlap_max + 2 ∨
    5 * ({ text := "aa", token_count := 2, chunk_id := 0, start_char := 0,
           end_char := 2 } : Chunk).token_count ≤ 6 * cfgTiny.chunk_max_tokens :=
  c4_amended countA cfgTiny ["aa"] 2 (by decide)
    (fun l _ => countA_joinSp l) _ (by decide)

/-- C5: at every finalization boundary, the accepted overlap seed produced
by the backward walk has per-sentence token sum within
`[overlap_min, overlap_max]`, is a contiguous suffix of the just-finalized
chunk's sentence list (hence in original document order), and is installed
as the next buffer; when the accumulated sum falls below `overlap_min` the
seed is rejected and the next buffer starts empty. -/
theorem c5_overlap_window (tc : String → Nat) (omin omax : Nat)
    (buf : List String) :
    (omin ≤ (buildOverlap tc omax buf).2 →
      seedChunk tc omin omax buf = buildOverlap tc omax buf ∧
      ((buildOverlap tc omax buf).1.map tc).sum = (buildOverlap tc omax buf).2 ∧
      omin ≤ ((buildOverlap tc omax buf).1.map tc).sum ∧
      ((buildOverlap tc omax buf).1.map tc).sum ≤ omax ∧
      ∃ preL, preL ++ (buildOverlap tc omax buf).1 = buf) ∧
    ((buildOverlap tc omax buf).2 < omin →
      seedChunk tc omin omax buf = ([], 0)) := by
  obtain ⟨h1, h2, h3⟩ := buildOverlap_spec tc omax buf
  constructor
  · intro hacc
    refine ⟨by simp [seedChunk, hacc], h1.symm, ?_, ?_, h3⟩
    · rw [← h1]
      exact hacc
    · rw [← h1]
      exact h2
  · intro hrej
    have hn : ¬ omin ≤ (buildOverlap tc omax buf).2 := Nat.not_le.2 hrej
    simp [seedChunk, hn]

/-- C5 witness: a concrete accepted overlap window. -/
theorem c5_witness :
    seedChunk countA 1 5 ["aa", "aa"] = buildOverlap countA 5 ["aa", "aa"] ∧
    ((buildOverlap countA 5 ["aa", "aa"]).1.map countA).sum =
      (buildOverlap countA 5 ["aa", "aa"]).2 ∧
    1 ≤ ((buildOverlap countA 5 ["aa", "aa"]).1.map countA).sum ∧
    ((buildOverlap countA 5 ["aa", "aa"]).1.map countA).sum ≤ 5 ∧
    ∃ preL, preL ++ (buildOverlap countA 5 ["aa", "aa"]).1 = ["aa", "aa"] :=
  (c5_overlap_window countA 1 5 ["aa", "aa"]).1 (by decide)

/-- C6 counterexample: one sentence of 10 tokens with `min_tokens = 400`
produces the EMPTY sequence, not a single under-budget chunk: the
end-of-input rule refuses to emit (10 < 400) and the tail handler needs an
already-existing chunk to merge into. -/
theorem c6_counterexample :
    ChunkerConfig.valid cfgDefault ∧
    tcFive "aa" = 10 ∧
    createChunks tcFive cfgDefault ["aa"] = [] ∧
    ¬ ∃ c ∈ createChunks tcFive cfgDefault ["aa"], c.text = "aa" := by
  refine ⟨by decide, by decide, by decide, ?_⟩
  rintro ⟨c, hc, -⟩
  rw [show createChunks tcFive cfgDefault ["aa"] = [] from by decide] at hc
  exact List.not_mem_nil c hc

/-- C6 amended: a document whose single sentence counts fewer than
`min_tokens` tokens yields the empty chunk sequence. -/
theorem c6_amended (tc : String → Nat) (cfg : ChunkerConfig) (s : String)
    (hlt : tc s < cfg.chunk_min_tokens) :
    createChunks tc cfg [s] = [] := by
  have hmin : ¬ cfg.chunk_min_tokens ≤ tc s := Nat.not_le.2 hlt
  simp [createChunks, packLoop, packStep, midFinalize, appendSentence,
    lastFinalize, hmin]

/-- C6 witness. -/
theorem c6_witness :
    tcFive "a" < cfgDefault.chunk_min_tokens ∧
    createChunks tcFive cfgDefault ["a"] = [] :=
  ⟨by decide, c6_amended tcFive cfgDefault "a" (by decide)⟩

/-- C7: chunk ids of the returned sequence are exactly `0, 1, 2, …` in
emission order, with no gaps or repeats — the tail merge reuses the last
chunk's id and a new trailing chunk takes the next sequential id. -/
theorem c7_sequential_ids (tc : String → Nat) (cfg : ChunkerConfig)
    (sentences : List String) :
    (createChunks tc cfg sentences).map Chunk.chunk_id =
      List.range (createChunks tc cfg sentences).length :=
  (createChunks_good tc cfg sentences).1

/-- C8: every returned chunk's stored `token_count` is exactly the token
counter re-applied to its stored `text` (the counter being a function,
determinism is built into the model). -/
theorem c8_token_count_recomputed (tc : String → Nat) (cfg : ChunkerConfig)
    (sentences : List String) :
    ∀ c ∈ createChunks tc cfg sentences, c.token_count = tc c.text :=
  fun c hc => ((createChunks_good tc cfg sentences).2 c hc).2.1

/-- C8 witness. -/
theorem c8_witness :
    ({ text := "aa aa", token_count := 20, chunk_id := 0, start_char := 0,
       end_char := 5 } : Chunk).token_count =
      tcFive ({ text := "aa aa", token_count := 20, chunk_id := 0,
                start_char := 0, end_char := 5 } : Chunk).text :=
  c8_token_count_recomputed tcFive cfgSmall ["aa"] _ (by decide)

/-- C9: zero sentences produce the empty chunk sequence without error, and
as long as every segmented sentence is a non-empty string, every chunk of
any returned sequence has non-empty text. -/
theorem c9_empty_input_nonempty_text (tc : String → Nat)
    (cfg : ChunkerConfig) (sentences : List String) :
    createChunks tc cfg [] = [] ∧
    ((∀ s ∈ sentences, s ≠ "") →
      ∀ c ∈ createChunks tc cfg sentences, c.text ≠ "") := by
  constructor
  · rfl
  · intro hs c hc
    obtain ⟨⟨l, hlne, hlSS, hltext⟩, -, -⟩ :=
      (createChunks_good tc cfg sentences).2 c hc
    rw [hltext]
    exact joinSp_ne_empty l hlne (fun x hx => hs x (hlSS x hx))

/-- C9 witness. -/
theorem c9_witness :
    ({ text := "aa", token_count := 2, chunk_id := 0, start_char := 0,
       end_char := 2 } : Chunk).text ≠ "" :=
  (c9_empty_input_nonempty_text countA cfgTiny ["aa"]).2 (by decide) _ (by decide)

/-- C10: for every returned chunk — including the merged tail chunk, whose
extended `end_char` is `old end_char + len(remaining) + 1` — `end_char`
equals `start_char` plus the character length of `text`. -/
theorem c10_offset_width (tc : String → Nat) (cfg : ChunkerConfig)
    (sentences : List String) :
    ∀ c ∈ createChunks tc cfg sentences,
      c.end_char = c.start_char + c.text.length :=
  fun c hc => ((createChunks_good tc cfg sentences).2 c hc).2.2

/-- C10 witness: the merged tail chunk of a concrete run. -/
theorem c10_witness :
    ({ text := "aa aa", token_count := 20, chunk_id := 0, start_char := 0,
       end_char := 5 } : Chunk).end_char =
      ({ text := "aa aa", token_count := 20, chunk_id := 0, start_char := 0,
         end_char := 5 } : Chunk).start_char +
      ({ text := "aa aa", token_count := 20, chunk_id := 0, start_char := 0,
         end_char := 5 } : Chunk).text.length :=
  c10_offset_width tcFive cfgSmall ["aa"] _ (by decide)
